import Mathlib

/-!
# Verification of the OCRify text-analytics pipeline (`src/Main.py`)

This file gives a shallow embedding of the analytics core of `Main.py`:

* `_analyze_text_enhanced` (tokenisation with `re.findall(r'\b[a-zA-Z]+\b', text.lower())`,
  word/character/line statistics, `Counter`-based frequency table, `most_common(10)`
  ranking, and unique-word selection with `max(unique_words, key=len)`),
* `_get_word_meaning` (the dictionary enrichment step and its error classification),
* `_update_unique_word` (the GUI callback applying a lookup result).

Strings are modelled as `List Char`; the embedding is faithful to CPython on ASCII
input (Python's `str.lower`, `re`'s `\w` and `\b`, and `str.strip` agree with the
ASCII definitions below on ASCII text; theorems that depend on this fidelity carry
an ASCII hypothesis).
-/

/-! ## Character classes (ASCII models of Python's `str.lower`, `\w`, `str.strip`) -/

/-- Model of Python `str.lower` on ASCII characters: `A`-`Z` map to `a`-`z`,
everything else is unchanged. -/
def pyLower (c : Char) : Char :=
  if 65 ≤ c.toNat ∧ c.toNat ≤ 90 then Char.ofNat (c.toNat + 32) else c

/-- The regex character class `[a-zA-Z]` from `re.findall(r'\b[a-zA-Z]+\b', ...)`. -/
def isAsciiAlpha (c : Char) : Bool :=
  (65 ≤ c.toNat && c.toNat ≤ 90) || (97 ≤ c.toNat && c.toNat ≤ 122)

/-- The regex word-character class `\w` restricted to ASCII: letters, digits, underscore.
`\b` in the source pattern is a boundary between a `\w` character and a non-`\w`
character (or the start/end of the string). -/
def isWordChar (c : Char) : Bool :=
  isAsciiAlpha c || (48 ≤ c.toNat && c.toNat ≤ 57) || c = '_'

/-- Characters removed by Python `str.strip()`, restricted to ASCII: space,
tab, newline, carriage return, vertical tab, form feed, and the file, group,
record and unit separators U+001C-U+001F, which `str.isspace()` also accepts
(so the ASCII codes are exactly 9-13, 28-31 and 32). -/
def pyIsSpace (c : Char) : Bool :=
  c = ' ' || c = '\t' || c = '\n' || c = '\r' || c.toNat = 11 || c.toNat = 12
    || (28 ≤ c.toNat && c.toNat ≤ 31)

/-- Lower-case ASCII letter test (`[a-z]`), used to state the token-shape property. -/
def isLowerAlpha (c : Char) : Bool :=
  97 ≤ c.toNat && c.toNat ≤ 122

/-- Whether an optional neighbouring character is a word character; `none`
(start or end of the string) is a boundary. -/
def optWordChar : Option Char → Bool
  | none => false
  | some c => isWordChar c

/-! ## Tokenizer

`words = re.findall(r'\b[a-zA-Z]+\b', self.extracted_text.lower())` (Main.py:590).

The backtracking regex engine matches, at each position, a maximal run of
`[a-zA-Z]` delimited by `\b` on both sides.  A maximal alphabetic run yields a
match exactly when the character before the run (if any) and the character after
the run (if any) are both non-word characters: the interior of a run never
contains a boundary, so no shorter sub-run can match either. -/

/-- Scanner for `\b[a-zA-Z]+\b` over an already lower-cased character list.
`prevW` records whether the previously scanned character was a word character. -/
def scanWords (prevW : Bool) : List Char → List (List Char)
  | [] => []
  | c :: cs =>
    if isAsciiAlpha c then
      let run := c :: cs.takeWhile isAsciiAlpha
      let rest := cs.dropWhile isAsciiAlpha
      if !prevW && !optWordChar rest.head? then
        run :: scanWords true rest
      else
        scanWords true rest
    else
      scanWords (isWordChar c) cs
termination_by s => s.length
decreasing_by
  · simp only [List.length_cons]
    exact Nat.lt_succ_of_le (List.dropWhile_suffix isAsciiAlpha).sublist.length_le
  · simp only [List.length_cons]
    exact Nat.lt_succ_of_le (List.dropWhile_suffix isAsciiAlpha).sublist.length_le
  · simp

/-- `tokenize text` embeds `re.findall(r'\b[a-zA-Z]+\b', text.lower())`. -/
def tokenize (text : List Char) : List (List Char) :=
  scanWords false (text.map pyLower)

/-- All maximal runs of `[a-zA-Z]` characters, in order (no boundary condition).
This is the claim's reading of the tokenizer: "the maximal runs of ASCII
alphabetic characters". -/
def maxAlphaRuns : List Char → List (List Char)
  | [] => []
  | c :: cs =>
    if isAsciiAlpha c then
      (c :: cs.takeWhile isAsciiAlpha) :: maxAlphaRuns (cs.dropWhile isAsciiAlpha)
    else
      maxAlphaRuns cs
termination_by s => s.length
decreasing_by
  · simp only [List.length_cons]
    exact Nat.lt_succ_of_le (List.dropWhile_suffix isAsciiAlpha).sublist.length_le
  · simp

/-- The tokenizer the claim describes: the maximal alphabetic runs of the
lower-cased text, in order.  (On ASCII text, lower-casing first and extracting
`[a-zA-Z]` runs is the same as extracting runs and lower-casing each, since
`[a-zA-Z]` is case-closed.)  Used to compare the code's behaviour with the
claim's words. -/
def claimTokenize (text : List Char) : List (List Char) :=
  maxAlphaRuns (text.map pyLower)

/-- All maximal alphabetic runs, each together with the character immediately
before the run and the character immediately after it (`none` at the ends).
`prev` is the character just before the current suffix. -/
def runsNbrs (prev : Option Char) : List Char → List (Option Char × List Char × Option Char)
  | [] => []
  | c :: cs =>
    if isAsciiAlpha c then
      let run := c :: cs.takeWhile isAsciiAlpha
      let rest := cs.dropWhile isAsciiAlpha
      (prev, run, rest.head?) :: runsNbrs (some c) rest
    else
      runsNbrs (some c) cs
termination_by s => s.length
decreasing_by
  · simp only [List.length_cons]
    exact Nat.lt_succ_of_le (List.dropWhile_suffix isAsciiAlpha).sublist.length_le
  · simp

/-! ## Frequency analyzer

`characters = len(self.extracted_text)`; `lines = len(self.extracted_text.split('\n'))`;
`word_freq = Counter(words)`; `top_10 = word_freq.most_common(10)` (Main.py:591-608). -/

/-- Python `text.split('\n')`: the newline-delimited segments (splitting the
empty string gives one empty segment). -/
def splitNl : List Char → List (List Char)
  | [] => [[]]
  | c :: cs =>
    if c = '\n' then [] :: splitNl cs
    else
      match splitNl cs with
      | s :: rest => (c :: s) :: rest
      | [] => [[c]]

/-- One step of `collections.Counter` construction: increment the count of `w`,
appending a fresh entry at the end on first sight (Python dicts preserve
insertion order, so `Counter` iterates in first-seen order). -/
def addWord (t : List (List Char × Nat)) (w : List Char) : List (List Char × Nat) :=
  match t with
  | [] => [(w, 1)]
  | (x, c) :: rest => if x = w then (x, c + 1) :: rest else (x, c) :: addWord rest w

/-- `Counter(words)` as an insertion-ordered association list. -/
def counter (ws : List (List Char)) : List (List Char × Nat) :=
  ws.foldl addWord []

/-- Sum of the stored occurrence counts of a frequency table. -/
def sumCounts (t : List (List Char × Nat)) : Nat :=
  (t.map (·.2)).sum

/-- Stable descending insertion by count: `p` is placed before the first entry
whose count is `≤ p`'s, hence before later-seen entries of equal count. -/
def insertDesc (p : List Char × Nat) : List (List Char × Nat) → List (List Char × Nat)
  | [] => [p]
  | q :: qs => if q.2 ≤ p.2 then p :: q :: qs else q :: insertDesc p qs

/-- Stable insertion sort by count, descending; ties keep first-seen order. -/
def sortDesc : List (List Char × Nat) → List (List Char × Nat)
  | [] => []
  | p :: ps => insertDesc p (sortDesc ps)

/-- `Counter.most_common(n)`: CPython computes `heapq.nlargest(n, items, key=count)`,
which is specified (and implemented, via a decreasing tie-breaking index) to be
equivalent to `sorted(items, key=count, reverse=True)[:n]` — a stable descending
sort followed by a prefix. -/
def mostCommon (t : List (List Char × Nat)) (n : Nat) : List (List Char × Nat) :=
  (sortDesc t).take n

/-! ## Unique-word selector

`unique_words = [word for word, count in word_freq.items() if count == 1 and len(word) >= 4]`;
`most_unique = max(unique_words, key=len)` (Main.py:624-628). -/

/-- The filtered candidate list, in the frequency table's (first-seen) order. -/
def uniqueCandidates (t : List (List Char × Nat)) : List (List Char) :=
  (t.filter fun p => p.2 = 1 ∧ p.1.length ≥ 4).map (·.1)

/-- Python `max(c :: cs, key=len)`: fold keeping the current best, replacing it
only on a strictly longer element — hence the first maximum wins. -/
def pyMaxByLen (c : List Char) (cs : List (List Char)) : List Char :=
  cs.foldl (fun best w => if best.length < w.length then w else best) c

/-- The unique-word selection: `none` when no candidate survives the filter
(the code then shows the "No unique words found" message), otherwise the
`max(..., key=len)` candidate (the code then spawns the dictionary lookup). -/
def selectUnique (t : List (List Char × Nat)) : Option (List Char) :=
  match uniqueCandidates t with
  | [] => none
  | c :: cs => some (pyMaxByLen c cs)

/-- The distinct words of `ws` in order of first occurrence (the key order of a
Python `Counter` built from `ws`). -/
def firstOccurrences (ws : List (List Char)) : List (List Char) :=
  ws.foldl (fun acc w => if w ∈ acc then acc else acc ++ [w]) []

/-- The maximum length over a list of words (0 for the empty list). -/
def listMaxLen (l : List (List Char)) : Nat :=
  l.foldr (fun w m => max w.length m) 0

/-! ## Display state and `_analyze_text_enhanced`

The five GUI widgets touched by the analysis are modelled as a record.  The
word/character/line labels hold the displayed numbers (the `f"{n:,}"` formatting
is presentation).  The frequency pane holds either one of the two fixed
messages or the rendered top-10 table; its rows are modelled structurally as
(word, count, percentage) with the percentage in `ℚ` (the code computes
`(count / total_words) * 100` in binary floating point and formats it `%4.1f`;
no claim under test depends on float rounding).  The unique-word pane holds its
raw text, because the enrichment callback overwrites it with an arbitrary
string. -/

/-- Contents of the frequency pane (`freq_words_text`). -/
inductive FreqDisplay where
  | noTextMsg : FreqDisplay
  | noWordsMsg : FreqDisplay
  | table : List (List Char × Nat × ℚ) → FreqDisplay
deriving DecidableEq

/-- The GUI state touched by `_analyze_text_enhanced` and `_update_unique_word`. -/
structure Display where
  wordCount : Nat
  charCount : Nat
  lineCount : Nat
  freq : FreqDisplay
  unique : String
deriving DecidableEq

/-- `unique_word_text` message in the blank-text branch (Main.py:586). -/
def noTextAnalysisMsg : String := "📋 No text available for analysis"

/-- `unique_word_text` message when no words were found (Main.py:603). -/
def noValidWordsMsg : String := "🔍 No valid words for analysis"

/-- `unique_word_text` message when no unique word qualifies (Main.py:634). -/
def noUniqueMsg : String :=
  "🔍 No unique words found\n\nAll words appear multiple times or are shorter than 4 letters.\n\nTry with an image containing more diverse vocabulary."

/-- The display written by the `if not self.extracted_text.strip()` branch
(Main.py:578-587): all three counters are set to 0. -/
def emptyTextDisplay : Display :=
  { wordCount := 0, charCount := 0, lineCount := 0
    freq := .noTextMsg, unique := noTextAnalysisMsg }

/-- `_analyze_text_enhanced` (Main.py:576-634) as a state update.  `text` is
`self.extracted_text`; `d` is the previous display state.  Returns the new
display and, when a unique word qualifies, the word passed to the
`_get_word_meaning` background thread (in that case the unique-word pane is
left untouched until the lookup result arrives).  `not text.strip()` is
equivalent to every character being whitespace. -/
def analyzeTextEnhanced (text : List Char) (d : Display) :
    Display × Option (List Char) :=
  if text.all pyIsSpace then
    (emptyTextDisplay, none)
  else
    let words := tokenize text
    let characters := text.length
    let lines := (splitNl text).length
    if words.isEmpty then
      ({ wordCount := words.length, charCount := characters, lineCount := lines
         freq := .noWordsMsg, unique := noValidWordsMsg }, none)
    else
      let tbl := counter words
      let rows := (mostCommon tbl 10).map fun p =>
        (p.1, p.2, ((p.2 : ℚ) / (words.length : ℚ)) * 100)
      match selectUnique tbl with
      | some w =>
        ({ wordCount := words.length, charCount := characters, lineCount := lines
           freq := .table rows, unique := d.unique }, some w)
      | none =>
        ({ wordCount := words.length, charCount := characters, lineCount := lines
           freq := .table rows, unique := noUniqueMsg }, none)

/-- `_update_unique_word` (Main.py:1111-1114): delete and re-insert the contents
of `unique_word_text` only; every other widget is untouched. -/
def updateUniqueWord (d : Display) (meaningText : String) : Display :=
  { d with unique := meaningText }

/-! ## Dictionary enricher (`_get_word_meaning`, Main.py:1063-1109)

The JSON payload of `https://api.dictionaryapi.dev/api/v2/entries/en/{word}` is
an array of entries; the code reads `data[0]` only, uses `'phonetic' in entry`
and `'meanings' in entry` membership tests (modelled as `Option`), and the
`.get(key, default)` accesses are modelled by `Option.getD` with the code's
default values.  The single `requests.get(url, timeout=5)` call is modelled by
an `HttpOutcome` describing how that one request ended. -/

/-- One element of a `definitions` array: `definition` and `example` keys
(the latter is called `usageExample` here because `example` is a Lean keyword). -/
structure DictDef where
  definition : Option String
  usageExample : Option String
deriving DecidableEq

/-- One element of a `meanings` array. -/
structure DictMeaning where
  partOfSpeech : Option String
  definitions : Option (List DictDef)
deriving DecidableEq

/-- One entry of the response array. -/
structure DictEntry where
  phonetic : Option String
  meanings : Option (List DictMeaning)
deriving DecidableEq

/-- Outcome of the single `requests.get(url, timeout=5)` call:
a response with a status code and (for 200) a parsed JSON body, a
`requests.RequestException` (timeout, connection refused, DNS failure), or any
other exception raised while handling the response (e.g. a JSON parse error). -/
inductive HttpOutcome where
  | response : Nat → List DictEntry → HttpOutcome
  | requestError : HttpOutcome
  | otherError : String → HttpOutcome
deriving DecidableEq

/-- The timeout passed to `requests.get` (Main.py:1068). -/
def lookupTimeoutSeconds : Nat := 5

/-- The lookup URL (Main.py:1067). -/
def dictionaryUrl (word : String) : String :=
  "https://api.dictionaryapi.dev/api/v2/entries/en/" ++ word

/-- `"🎯 MOST UNIQUE WORD: {word.upper()}\n" + "=" * 30`, the common prefix of
every `meaning_text` the function builds. -/
def headerOf (word : String) : String :=
  "🎯 MOST UNIQUE WORD: " ++ word.toUpper ++ "\n" ++ String.mk (List.replicate 30 '=')

/-- The `for j, definition in enumerate(definitions[:2])` loop body
(Main.py:1090-1096); `j` is the running index, printed as `j + 1`. -/
def defsText (j : Nat) : List DictDef → String
  | [] => ""
  | d :: ds =>
    "  " ++ toString (j + 1) ++ ". " ++ d.definition.getD "No definition available" ++ "\n"
      ++ (match d.usageExample with
          | some ex => "     Example: " ++ ex ++ "\n"
          | none => "")
      ++ defsText (j + 1) ds

/-- The `for i, meaning in enumerate(entry['meanings'][:2])` loop body
(Main.py:1085-1097). -/
def meaningsText : List DictMeaning → String
  | [] => ""
  | m :: ms =>
    (m.partOfSpeech.getD "Unknown").toUpper ++ ":\n"
      ++ defsText 0 ((m.definitions.getD []).take 2) ++ "\n"
      ++ meaningsText ms

/-- `_get_word_meaning` (Main.py:1063-1106): the `meaning_text` string handed to
`_update_unique_word`, as a function of the word and of how the single HTTP
request ended.  The function body is one big `try`, so every outcome produces a
string; nothing escapes. -/
def getWordMeaningText (word : String) : HttpOutcome → String
  | .response status body =>
    if status = 200 then
      let base := headerOf word ++ "\n\n"
      match body with
      | [] => base ++ "Definition not found in dictionary."
      | entry :: _ =>
        base
          ++ (match entry.phonetic with
              | some p => "Pronunciation: " ++ p ++ "\n\n"
              | none => "")
          ++ (match entry.meanings with
              | some ms => meaningsText (ms.take 2)
              | none => "")
    else
      headerOf word ++ "\n\nDefinition not available\n(Dictionary API returned an error)"
  | .requestError =>
    headerOf word ++ "\n\nDefinition not available\n(Network connection error)"
  | .otherError msg =>
    headerOf word ++ "\n\nError getting definition:\n" ++ msg

/-! ## Spec-level classification (`DefinitionResult`)

The spec describes the enricher as a classifier into
`Found / NotFound / LookupFailed`.  `specDefine` below follows the spec's words
(it is the comparand for the refinement claims C6 and C10); the refinement
theorem shows the code's `meaning_text` is exactly a rendering of it. -/

/-- A displayed definition: text plus optional usage example. -/
abbrev RenderedDef := String × Option String

/-- A displayed meaning: part-of-speech label plus its definitions. -/
abbrev RenderedMeaning := String × List RenderedDef

/-- Tagged outcome of the enrichment step, following the spec's data model. -/
inductive DefinitionResult where
  | found : Option String → List RenderedMeaning → DefinitionResult
  | notFound : DefinitionResult
  | failedService : DefinitionResult
  | failedNetwork : DefinitionResult
  | failedOther : String → DefinitionResult
deriving DecidableEq

/-- Spec-level conversion of one `definitions` element: the definition text
(defaulted when absent) and the optional example. -/
def defToRendered (d : DictDef) : RenderedDef :=
  (d.definition.getD "No definition available", d.usageExample)

/-- Spec-level conversion of one meaning: part-of-speech label (defaulted when
absent) and at most the first 2 definitions. -/
def meaningToRendered (m : DictMeaning) : RenderedMeaning :=
  (m.partOfSpeech.getD "Unknown", ((m.definitions.getD []).take 2).map defToRendered)

/-- The spec's classification of a lookup outcome (§4.4): HTTP 200 with a
non-empty payload yields `found` with the optional phonetic and at most the
first 2 meanings (at most 2 definitions each); 200 with an empty payload yields
`notFound`; a non-200 response yields a service failure; a network-level failure
yields a network failure. -/
def specDefine : HttpOutcome → DefinitionResult
  | .response status body =>
    if status = 200 then
      match body with
      | [] => .notFound
      | entry :: _ =>
        .found entry.phonetic (((entry.meanings.getD []).take 2).map meaningToRendered)
    else
      .failedService
  | .requestError => .failedNetwork
  | .otherError msg => .failedOther msg

/-- Rendering of a list of converted definitions, mirroring the code's loop. -/
def renderDefs (j : Nat) : List RenderedDef → String
  | [] => ""
  | d :: ds =>
    "  " ++ toString (j + 1) ++ ". " ++ d.1 ++ "\n"
      ++ (match d.2 with
          | some ex => "     Example: " ++ ex ++ "\n"
          | none => "")
      ++ renderDefs (j + 1) ds

/-- Rendering of a list of converted meanings. -/
def renderMeanings : List RenderedMeaning → String
  | [] => ""
  | m :: ms => m.1.toUpper ++ ":\n" ++ renderDefs 0 m.2 ++ "\n" ++ renderMeanings ms

/-- Rendering of a `DefinitionResult` as the display string for `word`. -/
def renderResult (word : String) : DefinitionResult → String
  | .found ph ms =>
    headerOf word ++ "\n\n"
      ++ (match ph with
          | some p => "Pronunciation: " ++ p ++ "\n\n"
          | none => "")
      ++ renderMeanings ms
  | .notFound => headerOf word ++ "\n\n" ++ "Definition not found in dictionary."
  | .failedService =>
    headerOf word ++ "\n\nDefinition not available\n(Dictionary API returned an error)"
  | .failedNetwork =>
    headerOf word ++ "\n\nDefinition not available\n(Network connection error)"
  | .failedOther msg => headerOf word ++ "\n\nError getting definition:\n" ++ msg

/-! ## Run semantics for the stale-result question (C8)

`_get_word_meaning` runs on a daemon thread and finishes with
`self.root.after(0, lambda: self._update_unique_word(meaning_text))`: the
callback is applied to whatever display is current when it fires, with no check
that the word still belongs to the run on screen.  An execution is a sequence
of these two events. -/

/-- The two events that touch the analysis display: a synchronous analysis run,
and the arrival (scheduling on the main thread) of a finished lookup. -/
inductive AppEvent where
  | runAnalysis : List Char → AppEvent
  | lookupArrives : String → HttpOutcome → AppEvent

/-- Effect of one event on the display. -/
def stepDisplay (d : Display) : AppEvent → Display
  | .runAnalysis text => (analyzeTextEnhanced text d).1
  | .lookupArrives word outcome => updateUniqueWord d (getWordMeaningText word outcome)

/-- Effect of a whole event sequence. -/
def runEvents (d : Display) (es : List AppEvent) : Display :=
  es.foldl stepDisplay d

/-! ## Lemmas: characters -/

/-- A valid-char bound for ASCII lower-casing. -/
theorem toNat_ofNat_of_le (n : Nat) (h : n ≤ 122) : (Char.ofNat n).toNat = n := by
  have hv : n.isValidChar := Or.inl (by omega)
  simp [Char.ofNat, hv, Char.toNat, Char.ofNatAux, UInt32.toNat, BitVec.toNat_ofNatLt]

/-- `pyLower` never produces an upper-case ASCII letter. -/
theorem pyLower_not_upper (c : Char) :
    ¬(65 ≤ (pyLower c).toNat ∧ (pyLower c).toNat ≤ 90) := by
  unfold pyLower
  split
  · next h =>
    rw [toNat_ofNat_of_le _ (by omega)]
    omega
  · next h => omega

/-- An alphabetic character produced by `pyLower` is a lower-case letter. -/
theorem isLowerAlpha_of_pyLower (c : Char) (h : isAsciiAlpha (pyLower c) = true) :
    isLowerAlpha (pyLower c) = true := by
  have h2 := pyLower_not_upper c
  unfold isAsciiAlpha at h
  unfold isLowerAlpha
  simp only [Bool.or_eq_true, Bool.and_eq_true, decide_eq_true_eq] at h ⊢
  omega

/-- Letters are word characters. -/
theorem isWordChar_of_alpha (c : Char) (h : isAsciiAlpha c = true) :
    isWordChar c = true := by
  unfold isWordChar
  simp [h]

/-! ## Lemmas: `splitNl` -/

theorem sumCounts_addWord (t : List (List Char × Nat)) (w : List Char) :
    sumCounts (addWord t w) = sumCounts t + 1 := by
  induction t with
  | nil => simp [addWord, sumCounts]
  | cons p rest ih =>
    obtain ⟨x, c⟩ := p
    unfold addWord
    by_cases h : x = w
    · simp [h, sumCounts]
      omega
    · simp only [h, if_false]
      simp [sumCounts] at ih ⊢
      omega

theorem sumCounts_foldl (ws : List (List Char)) :
    ∀ t, sumCounts (ws.foldl addWord t) = sumCounts t + ws.length := by
  induction ws with
  | nil => simp
  | cons w ws ih =>
    intro t
    simp only [List.foldl_cons, List.length_cons, ih, sumCounts_addWord]
    omega

/-- The total of the counts stored in `Counter(ws)` is `len(ws)`. -/
theorem sumCounts_counter (ws : List (List Char)) :
    sumCounts (counter ws) = ws.length := by
  unfold counter
  rw [sumCounts_foldl]
  simp [sumCounts]

/-- Inserting a word either leaves the key list unchanged or appends the new
word at the end: `Counter` keys are in first-seen order. -/
theorem keys_addWord (t : List (List Char × Nat)) (w : List Char) :
    (addWord t w).map (·.1)
      = if w ∈ t.map (·.1) then t.map (·.1) else t.map (·.1) ++ [w] := by
  induction t with
  | nil => simp [addWord]
  | cons p rest ih =>
    obtain ⟨x, c⟩ := p
    unfold addWord
    by_cases h : x = w
    · simp [h]
    · simp only [h, if_false, List.map_cons, List.mem_cons, ih]
      by_cases hw : w ∈ rest.map (·.1)
      · simp [hw, Ne.symm h]
      · simp [hw, Ne.symm h]

theorem counter_keys_foldl (ws : List (List Char)) :
    ∀ (t : List (List Char × Nat)) (acc : List (List Char)), t.map (·.1) = acc →
      (ws.foldl addWord t).map (·.1)
        = ws.foldl (fun acc w => if w ∈ acc then acc else acc ++ [w]) acc := by
  induction ws with
  | nil => intro t acc h; simpa using h
  | cons w ws ih =>
    intro t acc h
    simp only [List.foldl_cons]
    exact ih _ _ (by rw [keys_addWord, h])

/-- The key order of `Counter(ws)` is the first-occurrence order of `ws`. -/
theorem counter_keys (ws : List (List Char)) :
    (counter ws).map (·.1) = firstOccurrences ws :=
  counter_keys_foldl ws [] [] rfl

/-! ## Lemmas: stable descending sort (`most_common`) -/

theorem insertDesc_perm (p : List Char × Nat) (l : List (List Char × Nat)) :
    (insertDesc p l).Perm (p :: l) := by
  induction l with
  | nil => simp [insertDesc]
  | cons q qs ih =>
    unfold insertDesc
    split
    · exact List.Perm.refl _
    · exact (List.Perm.cons q ih).trans (List.Perm.swap p q qs)

theorem sortDesc_perm (l : List (List Char × Nat)) : (sortDesc l).Perm l := by
  induction l with
  | nil => simp [sortDesc]
  | cons p ps ih =>
    exact (insertDesc_perm p (sortDesc ps)).trans (List.Perm.cons p ih)

theorem insertDesc_sorted (p : List Char × Nat) (l : List (List Char × Nat))
    (h : l.Pairwise (fun a b => b.2 ≤ a.2)) :
    (insertDesc p l).Pairwise (fun a b => b.2 ≤ a.2) := by
  induction l with
  | nil => simp [insertDesc]
  | cons q qs ih =>
    rw [List.pairwise_cons] at h
    obtain ⟨hq, hqs⟩ := h
    unfold insertDesc
    split
    · next hle =>
      rw [List.pairwise_cons]
      refine ⟨?_, List.pairwise_cons.mpr ⟨hq, hqs⟩⟩
      intro b hb
      rcases List.mem_cons.mp hb with rfl | hb
      · exact hle
      · exact (hq b hb).trans hle
    · next hlt =>
      rw [List.pairwise_cons]
      refine ⟨?_, ih hqs⟩
      intro b hb
      have := (insertDesc_perm p qs).mem_iff.mp hb
      rcases List.mem_cons.mp this with rfl | hb'
      · omega
      · exact hq b hb'

theorem sortDesc_sorted (l : List (List Char × Nat)) :
    (sortDesc l).Pairwise (fun a b => b.2 ≤ a.2) := by
  induction l with
  | nil => simp [sortDesc]
  | cons p ps ih => exact insertDesc_sorted p (sortDesc ps) ih

/-- Stability of the insertion step, phrased on the count-`c` sublist. -/
theorem insertDesc_filter (p : List Char × Nat) (l : List (List Char × Nat)) (c : Nat) :
    (insertDesc p l).filter (fun q => q.2 == c)
      = if p.2 = c then p :: l.filter (fun q => q.2 == c)
        else l.filter (fun q => q.2 == c) := by
  induction l with
  | nil =>
    by_cases h : p.2 = c <;> simp [insertDesc, List.filter_cons, h]
  | cons q qs ih =>
    unfold insertDesc
    split
    · next hle =>
      by_cases h : p.2 = c <;> simp [List.filter_cons, h]
    · next hlt =>
      have hq : ¬(q.2 = c) ∨ ¬(p.2 = c) := by omega
      by_cases hp : p.2 = c
      · have hqc : ¬(q.2 = c) := by omega
        simp [List.filter_cons, hqc, hp, ih]
      · by_cases hqc : q.2 = c <;> simp [List.filter_cons, hqc, hp, ih]

/-- Stability of the sort: for every count value, the entries carrying that
count appear in the sorted output in their original (first-seen) order. -/
theorem sortDesc_filter (l : List (List Char × Nat)) (c : Nat) :
    (sortDesc l).filter (fun q => q.2 == c) = l.filter (fun q => q.2 == c) := by
  induction l with
  | nil => simp [sortDesc]
  | cons p ps ih =>
    unfold sortDesc
    rw [insertDesc_filter]
    by_cases h : p.2 = c <;> simp [List.filter_cons, h, ih]

/-! ## Lemmas: `max(unique_words, key=len)` -/

theorem pyMaxByLen_cons (c w : List Char) (ws : List (List Char)) :
    pyMaxByLen c (w :: ws) = pyMaxByLen (if c.length < w.length then w else c) ws := by
  simp [pyMaxByLen]

/-- The fold returns its seed or a list element. -/
theorem pyMaxByLen_mem (cs : List (List Char)) :
    ∀ c, pyMaxByLen c cs = c ∨ pyMaxByLen c cs ∈ cs := by
  induction cs with
  | nil => intro c; left; rfl
  | cons w ws ih =>
    intro c
    rw [pyMaxByLen_cons]
    by_cases h : c.length < w.length
    · rcases ih (if c.length < w.length then w else c) with h' | h'
      · right; rw [h'] ; simp [h]
      · right; exact List.mem_cons_of_mem _ h'
    · rcases ih (if c.length < w.length then w else c) with h' | h'
      · left; rw [h']; simp [h]
      · right; exact List.mem_cons_of_mem _ h'

/-- The fold result is at least as long as the seed and as every element. -/
theorem pyMaxByLen_le (cs : List (List Char)) :
    ∀ c, c.length ≤ (pyMaxByLen c cs).length
      ∧ ∀ w ∈ cs, w.length ≤ (pyMaxByLen c cs).length := by
  induction cs with
  | nil => intro c; exact ⟨Nat.le_refl _, by simp⟩
  | cons w ws ih =>
    intro c
    rw [pyMaxByLen_cons]
    obtain ⟨h1, h2⟩ := ih (if c.length < w.length then w else c)
    by_cases h : c.length < w.length
    · simp only [h, if_true] at h1 h2 ⊢
      refine ⟨(Nat.le_of_lt h).trans h1, ?_⟩
      intro v hv
      rcases List.mem_cons.mp hv with rfl | hv
      · exact h1
      · exact h2 v hv
    · simp only [h, if_false] at h1 h2 ⊢
      refine ⟨h1, ?_⟩
      intro v hv
      rcases List.mem_cons.mp hv with rfl | hv
      · exact (Nat.le_of_not_lt h).trans h1
      · exact h2 v hv

/-- If nothing in `cs` is strictly longer than the seed, the seed survives. -/
theorem pyMaxByLen_of_all_le (cs : List (List Char)) :
    ∀ c, (∀ w ∈ cs, w.length ≤ c.length) → pyMaxByLen c cs = c := by
  induction cs with
  | nil => intro c _; rfl
  | cons w ws ih =>
    intro c h
    rw [pyMaxByLen_cons]
    have hw : ¬ c.length < w.length := Nat.not_lt.mpr (h w (by simp))
    simp only [hw, if_false]
    exact ih c fun v hv => h v (List.mem_cons_of_mem _ hv)

theorem listMaxLen_cons (w : List Char) (ws : List (List Char)) :
    listMaxLen (w :: ws) = max w.length (listMaxLen ws) := rfl

theorem le_listMaxLen (l : List (List Char)) : ∀ w ∈ l, w.length ≤ listMaxLen l := by
  induction l with
  | nil => simp
  | cons v vs ih =>
    intro w hw
    rw [listMaxLen_cons]
    rcases List.mem_cons.mp hw with rfl | hw
    · exact Nat.le_max_left _ _
    · exact (ih w hw).trans (Nat.le_max_right _ _)

/-- When the seed is shorter than the longest element, the fold returns the
first element of maximal length. -/
theorem find?_eq_pyMaxByLen_of_lt (cs : List (List Char)) :
    ∀ b, b.length < listMaxLen cs →
      cs.find? (fun w => w.length == listMaxLen cs) = some (pyMaxByLen b cs) := by
  induction cs with
  | nil => intro b hb; simp [listMaxLen] at hb
  | cons w ws ih =>
    intro b hb
    rw [listMaxLen_cons] at hb
    by_cases hw : w.length = max w.length (listMaxLen ws)
    · have hbw : b.length < w.length := by omega
      rw [pyMaxByLen_cons]
      simp only [hbw, if_true]
      have hall : ∀ v ∈ ws, v.length ≤ w.length := by
        intro v hv
        have := le_listMaxLen ws v hv
        omega
      rw [pyMaxByLen_of_all_le ws w hall]
      rw [List.find?_cons]
      simp [listMaxLen_cons, hw.symm]
    · have hmax : max w.length (listMaxLen ws) = listMaxLen ws := by omega
      have hwlt : w.length < listMaxLen ws := by omega
      rw [List.find?_cons]
      have hne : (w.length == listMaxLen (w :: ws)) = false := by
        rw [listMaxLen_cons]
        simp
        omega
      rw [hne]
      rw [pyMaxByLen_cons]
      have hble : (if b.length < w.length then w else b).length < listMaxLen ws := by
        split <;> omega
      have := ih _ hble
      rw [listMaxLen_cons, hmax]
      exact this

/-- `max(c :: cs, key=len)` is the first element of maximal length. -/
theorem find?_eq_pyMaxByLen (c : List Char) (cs : List (List Char)) :
    (c :: cs).find? (fun w => w.length == listMaxLen (c :: cs))
      = some (pyMaxByLen c cs) := by
  rw [List.find?_cons]
  by_cases hc : c.length = listMaxLen (c :: cs)
  · simp only [hc, beq_self_eq_true]
    have hall : ∀ v ∈ cs, v.length ≤ c.length := by
      intro v hv
      have := le_listMaxLen cs v hv
      rw [listMaxLen_cons] at hc
      omega
    rw [pyMaxByLen_of_all_le cs c hall]
  · have hne : (c.length == listMaxLen (c :: cs)) = false := by simp [hc]
    rw [hne]
    rw [listMaxLen_cons] at hc ⊢
    have hlt : c.length < listMaxLen cs := by
      rcases Nat.le_total c.length (listMaxLen cs) with h1 | h1
      · rw [Nat.max_eq_right h1] at hc
        omega
      · rw [Nat.max_eq_left h1] at hc
        omega
    have hmax : max c.length (listMaxLen cs) = listMaxLen cs := by omega
    rw [hmax]
    exact find?_eq_pyMaxByLen_of_lt cs c hlt

/-! ## Lemmas: the tokenizer scanner -/

/-- The scanner keeps exactly the maximal runs whose two neighbouring
characters are boundaries (absent or non-word). -/
theorem scanWords_eq_runsNbrs (n : Nat) :
    ∀ (s : List Char), s.length ≤ n → ∀ pv : Option Char,
      scanWords (optWordChar pv) s
        = ((runsNbrs pv s).filter fun t => !optWordChar t.1 && !optWordChar t.2.2).map
            (fun t => t.2.1) := by
  induction n with
  | zero =>
    intro s hs pv
    have hnil : s = [] := List.length_eq_zero.mp (Nat.le_zero.mp hs)
    subst hnil
    simp [scanWords, runsNbrs]
  | succ n ih =>
    intro s hs pv
    match s with
    | [] => simp [scanWords, runsNbrs]
    | c :: cs =>
      have hrest : (cs.dropWhile isAsciiAlpha).length ≤ n := by
        have h1 := (List.dropWhile_suffix (l := cs) isAsciiAlpha).sublist.length_le
        simp only [List.length_cons] at hs
        omega
      have hcs : cs.length ≤ n := by
        simp only [List.length_cons] at hs
        omega
      by_cases hc : isAsciiAlpha c = true
      · have htrue : optWordChar (some c) = true := isWordChar_of_alpha c hc
        have hrec := ih _ hrest (some c)
        rw [htrue] at hrec
        rw [scanWords, runsNbrs]
        simp only [hc, if_true, List.filter_cons]
        by_cases hb : (!optWordChar pv && !optWordChar (cs.dropWhile isAsciiAlpha).head?) = true
        · simp only [hb, if_true, List.map_cons, hrec]
        · simp only [Bool.not_eq_true] at hb
          simp only [hb, if_false, Bool.false_eq_true, hrec]
      · have hrec := ih _ hcs (some c)
        rw [scanWords, runsNbrs]
        simp only [hc, if_false, Bool.false_eq_true]
        rw [← hrec]
        rfl

/-- The runs listed by `runsNbrs` are exactly the maximal alphabetic runs. -/
theorem runsNbrs_map (n : Nat) :
    ∀ (s : List Char), s.length ≤ n → ∀ pv : Option Char,
      (runsNbrs pv s).map (fun t => t.2.1) = maxAlphaRuns s := by
  induction n with
  | zero =>
    intro s hs pv
    have hnil : s = [] := List.length_eq_zero.mp (Nat.le_zero.mp hs)
    subst hnil
    simp [runsNbrs, maxAlphaRuns]
  | succ n ih =>
    intro s hs pv
    match s with
    | [] => simp [runsNbrs, maxAlphaRuns]
    | c :: cs =>
      have hrest : (cs.dropWhile isAsciiAlpha).length ≤ n := by
        have h1 := (List.dropWhile_suffix (l := cs) isAsciiAlpha).sublist.length_le
        simp only [List.length_cons] at hs
        omega
      have hcs : cs.length ≤ n := by
        simp only [List.length_cons] at hs
        omega
      by_cases hc : isAsciiAlpha c = true
      · rw [runsNbrs, maxAlphaRuns]
        simp only [hc, if_true, List.map_cons]
        rw [ih _ hrest (some c)]
      · rw [runsNbrs, maxAlphaRuns]
        simp only [hc, if_false, Bool.false_eq_true]
        exact ih _ hcs (some c)

/-- Every emitted token is non-empty and made of alphabetic characters of the
scanned string. -/
theorem scanWords_shape (n : Nat) :
    ∀ (s : List Char), s.length ≤ n → ∀ (pw : Bool), ∀ w ∈ scanWords pw s,
      w ≠ [] ∧ ∀ c ∈ w, isAsciiAlpha c = true ∧ c ∈ s := by
  induction n with
  | zero =>
    intro s hs pw w hw
    have hnil : s = [] := List.length_eq_zero.mp (Nat.le_zero.mp hs)
    subst hnil
    simp [scanWords] at hw
  | succ n ih =>
    intro s hs pw w hw
    match s with
    | [] => simp [scanWords] at hw
    | c :: cs =>
      have hrest : (cs.dropWhile isAsciiAlpha).length ≤ n := by
        have h1 := (List.dropWhile_suffix (l := cs) isAsciiAlpha).sublist.length_le
        simp only [List.length_cons] at hs
        omega
      have hcs : cs.length ≤ n := by
        simp only [List.length_cons] at hs
        omega
      by_cases hc : isAsciiAlpha c = true
      · rw [scanWords] at hw
        simp only [hc, if_true] at hw
        have hsub : ∀ v ∈ scanWords true (cs.dropWhile isAsciiAlpha),
            v ≠ [] ∧ ∀ c' ∈ v, isAsciiAlpha c' = true ∧ c' ∈ c :: cs := by
          intro v hv
          obtain ⟨h1, h2⟩ := ih _ hrest true v hv
          refine ⟨h1, fun c' hc' => ?_⟩
          obtain ⟨h3, h4⟩ := h2 c' hc'
          exact ⟨h3, List.mem_cons_of_mem _
            ((List.dropWhile_suffix isAsciiAlpha).sublist.mem h4)⟩
        by_cases hb : (!pw && !optWordChar (cs.dropWhile isAsciiAlpha).head?) = true
        · rw [hb, if_pos rfl] at hw
          rcases List.mem_cons.mp hw with rfl | hw'
          · refine ⟨by simp, fun c' hc' => ?_⟩
            rcases List.mem_cons.mp hc' with rfl | hc''
            · exact ⟨hc, by simp⟩
            · exact ⟨List.mem_takeWhile_imp hc'',
                List.mem_cons_of_mem _ ((List.takeWhile_sublist isAsciiAlpha).mem hc'')⟩
          · exact hsub w hw'
        · simp only [Bool.not_eq_true] at hb
          rw [hb] at hw
          simp only [Bool.false_eq_true, if_false] at hw
          exact hsub w hw
      · rw [scanWords] at hw
        simp only [hc, if_false, Bool.false_eq_true] at hw
        obtain ⟨h1, h2⟩ := ih _ hcs (isWordChar c) w hw
        refine ⟨h1, fun c' hc' => ?_⟩
        obtain ⟨h3, h4⟩ := h2 c' hc'
        exact ⟨h3, List.mem_cons_of_mem _ h4⟩

/-- Every token of `tokenize` is non-empty and matches `[a-z]+`. -/
theorem tokenize_shape (text : List Char) :
    ∀ w ∈ tokenize text, w ≠ [] ∧ ∀ c ∈ w, isLowerAlpha c = true := by
  intro w hw
  obtain ⟨h1, h2⟩ := scanWords_shape (text.map pyLower).length _ (Nat.le_refl _) false w hw
  refine ⟨h1, fun c hc => ?_⟩
  obtain ⟨h3, h4⟩ := h2 c hc
  obtain ⟨c', _, rfl⟩ := List.mem_map.mp h4
  exact isLowerAlpha_of_pyLower c' h3

/-! ## Lemmas: the enrichment string factors through the spec classification -/

theorem defsText_eq_render (ds : List DictDef) :
    ∀ j, defsText j ds = renderDefs j (ds.map defToRendered) := by
  induction ds with
  | nil => intro j; rfl
  | cons d ds ih =>
    intro j
    simp only [defsText, List.map_cons, renderDefs, defToRendered, ih]

theorem meaningsText_eq_render (ms : List DictMeaning) :
    meaningsText ms = renderMeanings (ms.map meaningToRendered) := by
  induction ms with
  | nil => rfl
  | cons m ms ih =>
    simp only [meaningsText, List.map_cons, renderMeanings, meaningToRendered,
      defsText_eq_render, ih]

/-- `_get_word_meaning`'s display string is exactly the rendering of the
spec-level classification of the request outcome. -/
theorem getWordMeaningText_eq_render (word : String) (outcome : HttpOutcome) :
    getWordMeaningText word outcome = renderResult word (specDefine outcome) := by
  match outcome with
  | .requestError => rfl
  | .otherError msg => rfl
  | .response status body =>
    by_cases h : status = 200
    · subst h
      match body with
      | [] => simp [getWordMeaningText, specDefine, renderResult]
      | entry :: rest =>
        simp only [getWordMeaningText, specDefine, if_pos rfl, renderResult]
        match hm : entry.meanings with
        | none => simp [renderMeanings, String.append_empty]
        | some ms => simp [meaningsText_eq_render, List.map_take]
    · simp [getWordMeaningText, specDefine, renderResult, h]

/-! ## Lemmas: every lookup display string starts with the 🎯 header -/

theorem head?_append (a b : String) (h : a.data.head? ≠ none) :
    (a ++ b).data.head? = a.data.head? := by
  rw [String.data_append]
  match ha : a.data with
  | [] => simp [ha] at h
  | c :: cs => simp

theorem headerOf_head (word : String) : (headerOf word).data.head? = some '🎯' := by
  unfold headerOf
  rw [String.data_append, String.data_append, String.data_append]
  rfl

theorem getWordMeaningText_head (word : String) (outcome : HttpOutcome) :
    (getWordMeaningText word outcome).data.head? = some '🎯' := by
  have hne : (headerOf word).data.head? ≠ none := by rw [headerOf_head]; simp
  match outcome with
  | .requestError => rw [getWordMeaningText, head?_append _ _ hne, headerOf_head]
  | .otherError msg =>
    have h2 : (headerOf word ++ "\n\nError getting definition:\n").data.head? ≠ none := by
      rw [head?_append _ _ hne, headerOf_head]
      simp
    rw [getWordMeaningText, head?_append _ _ h2, head?_append _ _ hne, headerOf_head]
  | .response status body =>
    by_cases h : status = 200
    · subst h
      rw [getWordMeaningText, if_pos rfl]
      match body with
      | [] =>
        show ((headerOf word ++ "\n\n") ++ "Definition not found in dictionary.").data.head? = _
        have h2 : (headerOf word ++ "\n\n").data.head? ≠ none := by
          rw [head?_append _ _ hne, headerOf_head]; simp
        rw [head?_append _ _ h2, head?_append _ _ hne, headerOf_head]
      | e :: rest =>
        have h2 : (headerOf word ++ "\n\n").data.head? ≠ none := by
          rw [head?_append _ _ hne, headerOf_head]; simp
        have h3 : ((headerOf word ++ "\n\n") ++
            (match e.phonetic with
             | some p => "Pronunciation: " ++ p ++ "\n\n"
             | none => "")).data.head? ≠ none := by
          rw [head?_append _ _ h2, head?_append _ _ hne, headerOf_head]; simp
        show (((headerOf word ++ "\n\n") ++ _) ++ _).data.head? = _
        rw [head?_append _ _ h3, head?_append _ _ h2, head?_append _ _ hne, headerOf_head]
    · rw [getWordMeaningText, if_neg h, head?_append _ _ hne, headerOf_head]

/-- The "no unique words" message can never be confused with a lookup result
(including lookup failures): every lookup display starts with the 🎯 header. -/
theorem meaning_ne_noUnique (word : String) (outcome : HttpOutcome) :
    getWordMeaningText word outcome ≠ noUniqueMsg := by
  intro heq
  have h2 := congrArg (fun s => s.data.head?) heq
  dsimp only at h2
  rw [getWordMeaningText_head] at h2
  simp only [noUniqueMsg] at h2
  exact absurd h2 (by decide)

/-! # Claim theorems -/

/-- C1 (counterexample): the claim reads the tokenizer as returning every
maximal run of ASCII letters; on `"abc123"` that reading yields the token
`abc`, but the code's pattern `\b[a-zA-Z]+\b` yields no token at all, because
the run `abc` is followed by a digit and hence not closed by a word boundary. -/
theorem tokenize_ne_maximal_runs_at_abc123 :
    tokenize "abc123".toList = []
      ∧ claimTokenize "abc123".toList = ["abc".toList]
      ∧ tokenize "abc123".toList ≠ claimTokenize "abc123".toList := by
  refine ⟨?_, ?_, ?_⟩
  · simp [tokenize, scanWords, pyLower, isAsciiAlpha, isWordChar, optWordChar,
      List.takeWhile, List.dropWhile]
  · simp [claimTokenize, maxAlphaRuns, pyLower, isAsciiAlpha,
      List.takeWhile, List.dropWhile]
  · simp [tokenize, claimTokenize, scanWords, maxAlphaRuns, pyLower, isAsciiAlpha,
      isWordChar, optWordChar, List.takeWhile, List.dropWhile]

/-- C1 (amended): on ASCII input, `tokenize` returns, in order, exactly those
maximal runs of ASCII alphabetic characters of the lower-cased text whose
neighbouring characters (if any) are not word characters (letters, digits or
underscore); in particular alphabetic runs adjacent to digits or underscores
contribute no tokens, and neither do runs of digits, punctuation or whitespace;
every returned token is non-empty and matches `[a-z]+`; the empty string yields
the empty sequence. -/
theorem tokenize_boundary_characterization (text : List Char)
    (_hA : ∀ c ∈ text, c.toNat < 128) :
    tokenize text
        = ((runsNbrs none (text.map pyLower)).filter
            fun t => !optWordChar t.1 && !optWordChar t.2.2).map (fun t => t.2.1)
      ∧ (runsNbrs none (text.map pyLower)).map (fun t => t.2.1) = claimTokenize text
      ∧ (∀ w ∈ tokenize text, w ≠ [] ∧ ∀ c ∈ w, isLowerAlpha c = true)
      ∧ tokenize ([] : List Char) = [] := by
  refine ⟨?_, ?_, tokenize_shape text, by simp [tokenize, scanWords]⟩
  · exact scanWords_eq_runsNbrs (text.map pyLower).length _ (Nat.le_refl _) none
  · exact runsNbrs_map (text.map pyLower).length _ (Nat.le_refl _) none

/-- C1 (witness): the amended characterization evaluated on `"ab cd9 EF!"`:
the runs `ab` and `ef` (lowered) are kept, `cd` is dropped for its digit
neighbour. -/
theorem tokenize_boundary_characterization_witness :
    (∀ c ∈ "ab cd9 EF!".toList, c.toNat < 128)
      ∧ tokenize "ab cd9 EF!".toList
          = ((runsNbrs none ("ab cd9 EF!".toList.map pyLower)).filter
              fun t => !optWordChar t.1 && !optWordChar t.2.2).map (fun t => t.2.1) :=
  ⟨by decide, (tokenize_boundary_characterization "ab cd9 EF!".toList (by decide)).1⟩

/-- C3: filtering the frequency table to entries with count 1 and length ≥ 4,
the selector returns the distinct `none` signal exactly when the filtered set
is empty (and the "no unique words" message it then triggers can never be
confused with a lookup-failure display), and otherwise returns a word of
maximum length in the filtered set. -/
theorem selectUnique_spec (t : List (List Char × Nat)) :
    (selectUnique t = none ↔ uniqueCandidates t = [])
      ∧ (∀ w, selectUnique t = some w →
          w ∈ uniqueCandidates t ∧ ∀ v ∈ uniqueCandidates t, v.length ≤ w.length)
      ∧ (∀ (word : String) (outcome : HttpOutcome),
          getWordMeaningText word outcome ≠ noUniqueMsg) := by
  refine ⟨⟨?_, ?_⟩, ?_, meaning_ne_noUnique⟩
  · intro h
    match hc : uniqueCandidates t with
    | [] => rfl
    | c :: cs => simp [selectUnique, hc] at h
  · intro h
    simp [selectUnique, h]
  · intro w hw
    match hc : uniqueCandidates t with
    | [] => simp [selectUnique, hc] at hw
    | c :: cs =>
      simp only [selectUnique, hc, Option.some.injEq] at hw
      subst hw
      constructor
      · rcases pyMaxByLen_mem cs c with h | h
        · rw [h]; simp
        · exact List.mem_cons_of_mem _ h
      · intro v hv
        obtain ⟨h1, h2⟩ := pyMaxByLen_le cs c
        rcases List.mem_cons.mp hv with rfl | hv'
        · exact h1
        · exact h2 v hv'

/-- C3 (witness): on the table built from `"efgh ab ijkl ijkl"`, the candidate
set is `[efgh]` and the selector picks `efgh`. -/
theorem selectUnique_spec_witness :
    "efgh".toList ∈ uniqueCandidates (counter (tokenize "efgh ab ijkl ijkl".toList)) :=
  ((selectUnique_spec (counter (tokenize "efgh ab ijkl ijkl".toList))).2.1
    "efgh".toList (by
      simp [tokenize, scanWords, pyLower, isAsciiAlpha, isWordChar, optWordChar,
        List.takeWhile, List.dropWhile, counter, addWord, selectUnique,
        uniqueCandidates, pyMaxByLen])).1

/-- C4: `most_common(n)` is the `n`-prefix of a stable descending sort of the
insertion-ordered frequency table: the sorted list is a permutation of the
table, its counts are non-increasing, and for every count value the entries
carrying that count appear in their original first-seen order; determinism and
idempotence hold trivially because the computation is a pure function of the
table. -/
theorem mostCommon_spec (t : List (List Char × Nat)) (n : Nat) :
    mostCommon t n = (sortDesc t).take n
      ∧ (sortDesc t).Perm t
      ∧ (sortDesc t).Pairwise (fun a b => b.2 ≤ a.2)
      ∧ (∀ c, (sortDesc t).filter (fun q => q.2 == c) = t.filter (fun q => q.2 == c))
      ∧ (∀ p ∈ mostCommon t n, ∀ q ∈ (sortDesc t).drop n, q.2 ≤ p.2)
      ∧ mostCommon t n = mostCommon t n := by
  refine ⟨rfl, sortDesc_perm t, sortDesc_sorted t, fun c => sortDesc_filter t c, ?_, rfl⟩
  intro p hp q hq
  have h := sortDesc_sorted t
  rw [← List.take_append_drop n (sortDesc t)] at h
  exact (List.pairwise_append.mp h).2.2 p hp q hq

/-- C5: the counts stored in the frequency table built from the token stream
sum to the length of that token stream. -/
theorem counter_counts_total (text : List Char) :
    sumCounts (counter (tokenize text)) = (tokenize text).length :=
  sumCounts_counter (tokenize text)

/-- C4 (witness): the ranking properties evaluated on the concrete table
`[(a,1), (b,2)]` with `n = 1`. -/
theorem mostCommon_spec_witness :
    (sortDesc [("a".toList, 1), ("b".toList, 2)]).filter (fun q => q.2 == 1)
        = [("a".toList, 1)]
      ∧ (1 : Nat) ≤ 2 := by
  constructor
  · have h := (mostCommon_spec [("a".toList, 1), ("b".toList, 2)] 1).2.2.2.1 1
    rw [h]
    decide
  · exact (mostCommon_spec [("a".toList, 1), ("b".toList, 2)] 1).2.2.2.2.1
      ("b".toList, 2) (by decide) ("a".toList, 1) (by decide)

/-- C6: the enricher issues its single request with a 5-second timeout, and its
display string is exactly the rendering of the spec classification of the
request's outcome: HTTP 200 with a non-empty payload yields `found` carrying
the first entry's optional phonetic and at most the first 2 meanings with at
most the first 2 definitions each (with their optional examples); 200 with an
empty payload yields `notFound`; a non-200 response yields the service-error
failure; a network-level failure (`requests.RequestException`: timeout,
connection refused, DNS failure) yields the network-error failure. -/
theorem getWordMeaning_classification (word : String) (outcome : HttpOutcome) :
    lookupTimeoutSeconds = 5
      ∧ getWordMeaningText word outcome = renderResult word (specDefine outcome)
      ∧ specDefine (.response 200 []) = .notFound
      ∧ (∀ (s : Nat) (body : List DictEntry), s ≠ 200 →
          specDefine (.response s body) = .failedService)
      ∧ specDefine .requestError = .failedNetwork
      ∧ (∀ (entry : DictEntry) (rest : List DictEntry), ∃ ms,
          specDefine (.response 200 (entry :: rest)) = .found entry.phonetic ms
            ∧ ms.length ≤ 2 ∧ ∀ p ∈ ms, p.2.length ≤ 2) := by
  refine ⟨rfl, getWordMeaningText_eq_render word outcome, rfl, ?_, rfl, ?_⟩
  · intro s body hs
    simp [specDefine, hs]
  · intro entry rest
    refine ⟨((entry.meanings.getD []).take 2).map meaningToRendered, ?_, ?_, ?_⟩
    · simp [specDefine]
    · simp only [List.length_map, List.length_take]
      exact Nat.min_le_left _ _
    · intro p hp
      obtain ⟨m, _, rfl⟩ := List.mem_map.mp hp
      simp only [meaningToRendered, List.length_map, List.length_take]
      exact Nat.min_le_left _ _

/-- C6 (witness): the classification evaluated at a concrete outcome: a 404
response is classified as a service failure. -/
theorem getWordMeaning_classification_witness :
    specDefine (.response 404 []) = .failedService :=
  (getWordMeaning_classification "w" (.response 404 [])).2.2.2.1 404 [] (by decide)

/-- C7: applying any enrichment result only replaces the unique-word pane:
the displayed word, character and line counts and the frequency table are
unchanged whatever the lookup outcome (the enricher itself is total — its one
`try` block converts every outcome into a display string). -/
theorem enrichment_frame (d : Display) (word : String) (outcome : HttpOutcome) :
    (updateUniqueWord d (getWordMeaningText word outcome)).wordCount = d.wordCount
      ∧ (updateUniqueWord d (getWordMeaningText word outcome)).charCount = d.charCount
      ∧ (updateUniqueWord d (getWordMeaningText word outcome)).lineCount = d.lineCount
      ∧ (updateUniqueWord d (getWordMeaningText word outcome)).freq = d.freq
      ∧ (updateUniqueWord d (getWordMeaningText word outcome)).unique
          = getWordMeaningText word outcome :=
  ⟨rfl, rfl, rfl, rfl, rfl⟩

/-- C8 (counterexample): an out-of-order completion in which the lookup spawned
by the first image ("abcd") arrives after a second image ("xx xx") has been
analyzed: the second run's display (the "no unique words" state) is overwritten
by the stale result, because the callback carries no run tag.  This refutes the
claim that a result from a previous run never overwrites the current display. -/
theorem stale_lookup_overwrites_display :
    (analyzeTextEnhanced "abcd".toList emptyTextDisplay).2 = some "abcd".toList
      ∧ (runEvents emptyTextDisplay
          [.runAnalysis "abcd".toList, .runAnalysis "xx xx".toList]).unique
          = noUniqueMsg
      ∧ (runEvents emptyTextDisplay
          [.runAnalysis "abcd".toList, .runAnalysis "xx xx".toList,
           .lookupArrives "abcd" .requestError]).unique
          = getWordMeaningText "abcd" .requestError
      ∧ getWordMeaningText "abcd" .requestError ≠ noUniqueMsg := by
  refine ⟨?_, ?_, ?_, meaning_ne_noUnique "abcd" .requestError⟩
  · simp [analyzeTextEnhanced, tokenize, scanWords, pyLower, isAsciiAlpha, isWordChar,
      optWordChar, List.takeWhile, List.dropWhile, pyIsSpace, counter, addWord,
      selectUnique, uniqueCandidates, pyMaxByLen]
  · simp only [runEvents, List.foldl, stepDisplay]
    simp [analyzeTextEnhanced, tokenize, scanWords, pyLower, isAsciiAlpha, isWordChar,
      optWordChar, List.takeWhile, List.dropWhile, pyIsSpace, counter, addWord,
      selectUnique, uniqueCandidates, pyMaxByLen]
  · simp only [runEvents, List.foldl, stepDisplay, updateUniqueWord]

/-- C8 (amended): the code does not tag enrichment results with the run they
belong to: `_update_unique_word` replaces the unique-word pane with whichever
lookup result arrives, unconditionally on the current display state, so a
late-arriving result for a word from a previous image does overwrite the
current run's display (as the counterexample trace shows). -/
theorem lookupArrives_overwrites_unconditionally (d : Display) (word : String)
    (outcome : HttpOutcome) :
    (stepDisplay d (.lookupArrives word outcome)).unique
        = getWordMeaningText word outcome
      ∧ (stepDisplay d (.lookupArrives word outcome)).freq = d.freq :=
  ⟨rfl, rfl⟩

/-- C9: the representative-word selection is deterministic: the candidate list
keeps the frequency table's key order, which is the first-occurrence order of
the token stream, and `max(..., key=len)` returns the first candidate whose
length equals the maximum candidate length (Python `max` replaces the running
best only on a strictly greater key). -/
theorem selectUnique_first_encountered (ws : List (List Char)) (c : List Char)
    (cs : List (List Char)) (h : uniqueCandidates (counter ws) = c :: cs) :
    selectUnique (counter ws)
        = (c :: cs).find? (fun w => w.length == listMaxLen (c :: cs))
      ∧ (counter ws).map (·.1) = firstOccurrences ws
      ∧ List.Sublist (uniqueCandidates (counter ws)) ((counter ws).map (·.1)) := by
  refine ⟨?_, counter_keys ws, ?_⟩
  · rw [find?_eq_pyMaxByLen c cs]
    simp [selectUnique, h]
  · unfold uniqueCandidates
    exact (List.filter_sublist _).map _

/-- C9 (witness): on the token stream `[abcd, efgh]` (two max-length ties) the
selector returns the first-encountered tie `abcd`. -/
theorem selectUnique_first_encountered_witness :
    selectUnique (counter ["abcd".toList, "efgh".toList]) = some "abcd".toList := by
  have h := selectUnique_first_encountered ["abcd".toList, "efgh".toList]
    "abcd".toList ["efgh".toList] (by decide)
  rw [h.1]
  decide

/-- C10: a 200 response whose non-empty payload's first entry lacks fields is
never `notFound` and never raises (the embedding is a total function): with
neither `phonetic` nor `meanings` the result is `found` with no phonetic and no
meanings, and the display string is the bare header; absent `partOfSpeech` or
`definition` fields are replaced by the code's defaults, and absent `example`
fields are omitted. -/
theorem missing_fields_defaulted (word : String) (entry : DictEntry)
    (rest : List DictEntry) (hp : entry.phonetic = none) (hm : entry.meanings = none) :
    specDefine (.response 200 (entry :: rest)) = .found none []
      ∧ getWordMeaningText word (.response 200 (entry :: rest)) = headerOf word ++ "\n\n"
      ∧ getWordMeaningText word (.response 200 (entry :: rest))
          ≠ getWordMeaningText word (.response 200 [])
      ∧ (∀ (e : DictEntry) (rs : List DictEntry),
          specDefine (.response 200 (e :: rs)) ≠ .notFound)
      ∧ (∀ m : DictMeaning, m.partOfSpeech = none → (meaningToRendered m).1 = "Unknown")
      ∧ (∀ dd : DictDef, dd.definition = none →
          (defToRendered dd).1 = "No definition available") := by
  have hbase : getWordMeaningText word (.response 200 (entry :: rest))
      = headerOf word ++ "\n\n" := by
    simp [getWordMeaningText, hp, hm, String.append_empty]
  have hnf : getWordMeaningText word (.response 200 [])
      = (headerOf word ++ "\n\n") ++ "Definition not found in dictionary." := by
    simp [getWordMeaningText]
  refine ⟨by simp [specDefine, hp, hm], hbase, ?_, ?_, ?_, ?_⟩
  · rw [hbase, hnf]
    intro heq
    have hlen := congrArg String.length heq
    simp only [String.length_append] at hlen
    have hpos : 0 < "Definition not found in dictionary.".length := by decide
    omega
  · intro e rs
    simp [specDefine]
  · intro m hpos
    simp [meaningToRendered, hpos]
  · intro dd hd
    simp [defToRendered, hd]

/-- C10 (witness): the defaulting behaviour evaluated on the concrete entry
with neither field present. -/
theorem missing_fields_defaulted_witness :
    specDefine (.response 200 [DictEntry.mk none none]) = .found none [] :=
  (missing_fields_defaulted "w" (DictEntry.mk none none) [] rfl rfl).1
